import Mathlib

/-!
Shallow embedding of `server.py` (Access File Transfer Server).

The server keeps five in-memory stores (dictionaries / a list) and exposes
HTTP endpoints that read and mutate them.  Python dictionaries are modelled
as association lists with the same lookup/replace/insert-at-end semantics;
the wall clock (`datetime.now()`) is modelled as an abstract `Nat` instant
passed to each request; raw bytes are `List Nat`; the JSON values produced
by `json.loads` are modelled by the inductive `Json` below, with a failed
parse represented as `none`.  Endpoints that can raise `HTTPException`
return the (possibly unchanged) state together with an `Except` carrying
the HTTP status code, mirroring the fact that in the Python handlers every
`raise` happens before any store is mutated.
-/

/-- Lookup in an association list: the model of `d.get(k)` / `k in d`. -/
def alookup {α : Type} (k : String) : List (String × α) → Option α
  | [] => none
  | (k', v) :: rest => if k' = k then some v else alookup k rest

/-- Update in an association list: the model of `d[k] = v` (replace the
existing binding in place, or append a new binding at the end, exactly as a
Python dict does). -/
def aset {α : Type} (k : String) (v : α) : List (String × α) → List (String × α)
  | [] => [(k, v)]
  | (k', v') :: rest => if k' = k then (k, v) :: rest else (k', v') :: aset k v rest

/-- JSON values, the possible results of `json.loads`. -/
inductive Json where
  | null : Json
  | bool (b : Bool) : Json
  | num (n : Int) : Json
  | str (s : String) : Json
  | arr (elems : List Json) : Json
  | obj (fields : List (String × Json)) : Json

/-- Python iteration over a decoded JSON value (`for f in files_list`):
lists iterate their elements, strings their characters, objects their keys;
numbers, booleans and `null` are not iterable (a `TypeError`, caught by the
handler's `except`). -/
def jsonIter : Json → Option (List Json)
  | Json.arr elems => some elems
  | Json.str s => some (s.data.map (fun c => Json.str (String.mk [c])))
  | Json.obj fields => some (fields.map (fun p => Json.str p.1))
  | _ => none

/-- Whether a JSON value is a list whose elements are all strings. -/
def isListOfStrings : Json → Bool
  | Json.arr elems => elems.all (fun j => match j with | Json.str _ => true | _ => false)
  | _ => false

/-- A command dict as stored in `pending_commands`.  The result keys
(`saved_as`, `filename`, `size`, `completed_at`) are absent (`none`) until
an upload sets them; `filepath` is the payload key present only on upload
commands. -/
structure Command where
  command_id : String
  type : String
  status : String
  filepath : Option String := none
  saved_as : Option String := none
  filename : Option String := none
  size : Option Nat := none
  completed_at : Option Nat := none
deriving DecidableEq

/-- An entry of a `client_files[client_id]` list. -/
structure FileEntry where
  filepath : Json
  reported_at : Nat

/-- An entry of the `uploaded_files_metadata` ledger. -/
structure LedgerEntry where
  command_id : String
  client_id : String
  filename : String
  saved_path : String
  size : Nat
  uploaded_at : Nat
deriving DecidableEq

/-- A `clients_registry` record. -/
structure ClientRecord where
  ip : String
  last_seen : Nat
deriving DecidableEq

/-- The four configuration fields stored in `client_configs[client_id]`. -/
structure ConfigData where
  search_patterns : List String
  search_directories : List String
  max_file_size_mb : Int
  scan_interval : Int
deriving DecidableEq

/-- The `ClientConfig` request body of `POST /client/{client_id}/config`
(its `client_id` field is ignored by the handler, which keys on the path
parameter). -/
structure ClientConfigBody where
  client_id : String
  search_patterns : List String
  search_directories : List String
  max_file_size_mb : Int
  scan_interval : Int
deriving DecidableEq

/-- The whole mutable state of the server: the five module-level stores of
`server.py` plus the contents of the `uploaded_files` directory on disk
(path ↦ bytes). -/
structure ServerState where
  pending_commands : List (String × List Command)
  client_files : List (String × List FileEntry)
  uploaded_files_metadata : List LedgerEntry
  clients_registry : List (String × ClientRecord)
  client_configs : List (String × ConfigData)
  file_store : List (String × List Nat)

/-- The state at process start: every store empty. -/
def initState : ServerState :=
  { pending_commands := [], client_files := [], uploaded_files_metadata := [],
    clients_registry := [], client_configs := [], file_store := [] }

/-- The model of `pending_commands.get(client_id, [])`. -/
def queueOf (st : ServerState) (client_id : String) : List Command :=
  (alookup client_id st.pending_commands).getD []

/-- Shared body of the four command-creation endpoints:
`pending_commands.setdefault(client_id, []).append(new_command)`.  The
`uuid.uuid4()` value is modelled as the parameter `command_id`. -/
def appendCommand (st : ServerState) (client_id : String) (cmd : Command) : ServerState :=
  { st with pending_commands := aset client_id (queueOf st client_id ++ [cmd]) st.pending_commands }

/-- Endpoint `POST /command/scan`. -/
def create_scan_command (st : ServerState) (client_id command_id : String) : ServerState :=
  appendCommand st client_id { command_id := command_id, type := "scan", status := "pending" }

/-- Endpoint `POST /command/upload`. -/
def create_upload_command (st : ServerState) (client_id command_id filepath : String) : ServerState :=
  appendCommand st client_id
    { command_id := command_id, type := "upload", status := "pending", filepath := some filepath }

/-- Endpoint `POST /command/reboot`. -/
def create_reboot_command (st : ServerState) (client_id command_id : String) : ServerState :=
  appendCommand st client_id { command_id := command_id, type := "reboot", status := "pending" }

/-- Endpoint `POST /command/shutdown`. -/
def create_shutdown_command (st : ServerState) (client_id command_id : String) : ServerState :=
  appendCommand st client_id { command_id := command_id, type := "shutdown", status := "pending" }

/-- Endpoint `GET /commands/{client_id}`: the pending commands of that client, in
queue order.  A pure read: it mutates nothing. -/
def get_commands (st : ServerState) (client_id : String) : List Command :=
  (queueOf st client_id).filter (fun cmd => cmd.status = "pending")

/-- The loop of `report_files`: walk the client's command list and flip the
status of the first pending `scan` command to `"completed"` (the `break`
stops after the first hit); nothing else about the command is changed. -/
def completeFirstScan : List Command → List Command
  | [] => []
  | cmd :: rest =>
    if cmd.type = "scan" ∧ cmd.status = "pending" then
      { cmd with status := "completed" } :: rest
    else cmd :: completeFirstScan rest

/-- Endpoint `POST /files/report`.  Here `files_json` is the result of `json.loads`
(`none` for a parse failure).  A parse failure, or a decoded value that is
not iterable, raises before any store is touched, so the state comes back
unchanged with error 400.  Otherwise the client's file list is overwritten
wholesale, the first pending scan command (if the client has a queue) is
completed, and the element count is returned. -/
def report_files (st : ServerState) (client_id : String) (files_json : Option Json)
    (now : Nat) : ServerState × Except Nat Nat :=
  match files_json with
  | none => (st, Except.error 400)
  | some j =>
    match jsonIter j with
    | none => (st, Except.error 400)
    | some files_list =>
      let entries := files_list.map (fun f => ({ filepath := f, reported_at := now } : FileEntry))
      let st1 := { st with client_files := aset client_id entries st.client_files }
      let st2 :=
        match alookup client_id st1.pending_commands with
        | none => st1
        | some cmds =>
          { st1 with pending_commands := aset client_id (completeFirstScan cmds) st1.pending_commands }
      (st2, Except.ok files_list.length)

/-- Endpoint `GET /client/{client_id}/files`. -/
def get_client_files (st : ServerState) (client_id : String) : List FileEntry :=
  (alookup client_id st.client_files).getD []

/-- Endpoint `POST /client/status`: wholesale replacement of the registry record. -/
def receive_client_status (st : ServerState) (client_id ip : String) (now : Nat) : ServerState :=
  { st with clients_registry := aset client_id ({ ip := ip, last_seen := now }) st.clients_registry }

/-- The default configuration literal of `get_client_config`. -/
def default_config : ConfigData :=
  { search_patterns := ["*.log", "*.txt", "*.json"], search_directories := ["all"],
    max_file_size_mb := 100, scan_interval := 5 }

/-- Endpoint `GET /client/{client_id}/config`. -/
def get_client_config (st : ServerState) (client_id : String) : ConfigData :=
  match alookup client_id st.client_configs with
  | none => default_config
  | some cfg => cfg

/-- Endpoint `POST /client/{client_id}/config`: unconditional overwrite keyed by the
path parameter, storing exactly the four body fields. -/
def set_client_config (st : ServerState) (client_id : String) (config : ClientConfigBody) : ServerState :=
  let stored : ConfigData :=
    { search_patterns := config.search_patterns,
      search_directories := config.search_directories,
      max_file_size_mb := config.max_file_size_mb,
      scan_interval := config.scan_interval }
  { st with client_configs := aset client_id stored st.client_configs }

/-- The filename sanitization of `upload_file`:
`file.filename.replace("/", "_").replace("\\", "_")`, written over the
character list (both replacements are of single characters). -/
def sanitizeFilename (s : String) : String :=
  String.mk ((s.data.map (fun c => if c = '/' then '_' else c)).map
    (fun c => if c = '\\' then '_' else c))

/-- Decimal rendering, fuelled so that it is structurally recursive (the
fuel `n + 1` always suffices: a number below `10 ^ k` needs at most `k`
digits). -/
def natCharsAux : Nat → Nat → List Char
  | 0, _ => []
  | fuel + 1, n =>
    if n < 10 then [Nat.digitChar n]
    else natCharsAux fuel (n / 10) ++ [Nat.digitChar (n % 10)]

/-- Decimal digits of a natural number, most significant first.  This
renders the abstract clock instant; it stands in for the digits-and-
underscore output of `strftime("%Y%m%d_%H%M%S")`. -/
def natChars (n : Nat) : List Char :=
  natCharsAux (n + 1) n

/-- The timestamp string embedded in a storage path. -/
def timestampStr (now : Nat) : String := String.mk (natChars now)

/-- Models `os.path.join(a, b)` on a POSIX system, for `a` non-empty and not
ending in a separator: if `b` is absolute the first part is discarded,
otherwise the parts are joined with a single `/`. -/
def pathJoin (a b : String) : String :=
  if b.data.head? = some '/' then b else a ++ "/" ++ b

/-- The storage directory `uploaded_files_dir`. -/
def uploaded_files_dir : String := "uploaded_files"

/-- The `save_path` computed by `upload_file`:
`os.path.join(uploaded_files_dir, f"{client_id}_{timestamp}_{safe_filename}")`. -/
def build_save_path (client_id : String) (now : Nat) (filename : String) : String :=
  pathJoin uploaded_files_dir (client_id ++ "_" ++ timestampStr now ++ "_" ++ sanitizeFilename filename)

/-- The in-place mutation of the command object found by
`next((c for c in commands if c["command_id"] == command_id), None)`:
apply `upd` to the first command in the list whose id matches. -/
def completeById (command_id : String) (upd : Command → Command) : List Command → List Command
  | [] => []
  | cmd :: rest =>
    if cmd.command_id = command_id then upd cmd :: rest
    else cmd :: completeById command_id upd rest

/-- The field updates `upload_file` performs on the matched command. -/
def uploadUpdate (save_path filename : String) (size now : Nat) (cmd : Command) : Command :=
  { cmd with
    status := "completed"
    saved_as := some save_path
    filename := some filename
    size := some size
    completed_at := some now }

/-- Endpoint `POST /upload/`.  The command is looked up by id only (the `status` of
the matched command is not inspected); on a miss the handler raises 404
before anything is written.  On a hit the bytes are written to disk, the
matched command is completed with the result metadata, and one ledger
entry is appended.  `Except.ok` carries the echoed `command_id`. -/
def upload_file (st : ServerState) (command_id client_id filename : String)
    (content : List Nat) (now : Nat) : ServerState × Except Nat String :=
  let commands := queueOf st client_id
  match commands.find? (fun c => c.command_id = command_id) with
  | none => (st, Except.error 404)
  | some _ =>
    let save_path := build_save_path client_id now filename
    let st1 := { st with file_store := aset save_path content st.file_store }
    let newCmds := completeById command_id (uploadUpdate save_path filename content.length now) commands
    let st2 := { st1 with pending_commands := aset client_id newCmds st1.pending_commands }
    let entry : LedgerEntry :=
      { command_id := command_id, client_id := client_id, filename := filename,
        saved_path := save_path, size := content.length, uploaded_at := now }
    ({ st2 with uploaded_files_metadata := st2.uploaded_files_metadata ++ [entry] },
     Except.ok command_id)

/-- Endpoint `GET /download/{command_id}`: the first ledger entry with the given
command id; 404 if there is none or the stored file no longer exists. -/
def download_file (st : ServerState) (command_id : String) : Except Nat (List Nat × String) :=
  match st.uploaded_files_metadata.find? (fun f => f.command_id = command_id) with
  | none => Except.error 404
  | some file_record =>
    match alookup file_record.saved_path st.file_store with
    | none => Except.error 404
    | some content => Except.ok (content, file_record.filename)

/-- One state-mutating request to the server.  The fresh `uuid.uuid4()`
of the creation endpoints is the explicit `command_id` argument; read-only
endpoints (`get_commands`, `get_client_files`, `get_client_config`,
`download_file`, the listing endpoints) are pure functions and mutate
nothing. -/
inductive Op where
  | createScan (client_id command_id : String) : Op
  | createUpload (client_id command_id filepath : String) : Op
  | createReboot (client_id command_id : String) : Op
  | createShutdown (client_id command_id : String) : Op
  | report (client_id : String) (files_json : Option Json) (now : Nat) : Op
  | clientStatus (client_id ip : String) (now : Nat) : Op
  | setConfig (client_id : String) (config : ClientConfigBody) : Op
  | upload (command_id client_id filename : String) (content : List Nat) (now : Nat) : Op

/-- The state after serving one request (failed requests leave the state
as the handler left it, i.e. unchanged). -/
def applyOp (st : ServerState) : Op → ServerState
  | Op.createScan cid id => create_scan_command st cid id
  | Op.createUpload cid id fp => create_upload_command st cid id fp
  | Op.createReboot cid id => create_reboot_command st cid id
  | Op.createShutdown cid id => create_shutdown_command st cid id
  | Op.report cid j now => (report_files st cid j now).1
  | Op.clientStatus cid ip now => receive_client_status st cid ip now
  | Op.setConfig cid cfg => set_client_config st cid cfg
  | Op.upload id cid fn content now => (upload_file st id cid fn content now).1

/-- Freshness: `id` is unused as a command id anywhere in the state (what `uuid4`
guarantees in practice). -/
def FreshId (st : ServerState) (id : String) : Prop :=
  ∀ cid : String, ∀ cmd ∈ queueOf st cid, cmd.command_id ≠ id

/-- The side condition under which an operation can actually occur: the
creation endpoints draw a fresh uuid; every other operation is
unconstrained. -/
def FreshFor (st : ServerState) : Op → Prop
  | Op.createScan _ id => FreshId st id
  | Op.createUpload _ id _ => FreshId st id
  | Op.createReboot _ id => FreshId st id
  | Op.createShutdown _ id => FreshId st id
  | _ => True

/-- The states the running server can actually be in. -/
inductive Reachable : ServerState → Prop where
  | init : Reachable initState
  | step (st : ServerState) (op : Op) (h : Reachable st) (hfresh : FreshFor st op) :
      Reachable (applyOp st op)

/-- A queue whose only command `u1` has already been completed by a first
upload: the second upload call has no matching *pending* command. -/
def stCompletedUpload : ServerState :=
  (upload_file (create_upload_command initState "agent1" "u1" "/tmp/a")
    "u1" "agent1" "report.txt" [1, 2, 3] 0).1

/-- A two-step reachable demo state: a scan command `s1` for `agent1`,
then a report that completes it. -/
def demoCompletedScan : ServerState :=
  applyOp (applyOp initState (Op.createScan "agent1" "s1"))
    (Op.report "agent1" (some (Json.arr [Json.str "a.txt"])) 0)

/-- A one-step reachable state: a pending upload command `u9` for
`agent1`, created from the empty start state. -/
def demoPendingUpload : ServerState :=
  applyOp initState (Op.createUpload "agent1" "u9" "/tmp/secret.txt")

/-- A reachable state holding a pending upload command for the
separator-carrying agent id `../evil`. -/
def demoEvilAgent : ServerState :=
  applyOp initState (Op.createUpload "../evil" "x1" "/etc/passwd")

/-- The ids of a command list, in order. -/
def cmdIds (l : List Command) : List String := l.map Command.command_id

/-- The invariant every request preserves: command ids are unique within
and across queues (they are freshly drawn uuids and commands never
migrate), every status is `pending` or `completed`, and every ledger
entry's owning command exists and is completed. -/
structure Invariant (st : ServerState) : Prop where
  nodup_ids : ∀ cid, (cmdIds (queueOf st cid)).Pairwise (· ≠ ·)
  disjoint_ids : ∀ cid cid', cid ≠ cid' →
    ∀ x ∈ cmdIds (queueOf st cid), x ∉ cmdIds (queueOf st cid')
  statuses : ∀ cid, ∀ c ∈ queueOf st cid, c.status = "pending" ∨ c.status = "completed"
  ledger_completed : ∀ e ∈ st.uploaded_files_metadata, ∀ cid, ∀ c ∈ queueOf st cid,
    c.command_id = e.command_id → c.status = "completed"
  ledger_has_cmd : ∀ e ∈ st.uploaded_files_metadata, ∃ cid, ∃ c ∈ queueOf st cid,
    c.command_id = e.command_id

/-- A single safe path component: non-empty, not a dot component, and free
of the separator, so that `root/name` denotes a file directly inside
`root` and cannot resolve outside it. -/
def isSafeName (l : List Char) : Bool :=
  !l.isEmpty && !(l == ['.']) && !(l == ['.', '.']) && l.all (fun c => !(c == '/'))

/-- Holds when `p` names a file directly under the directory `root`: it is
`root ++ "/" ++ name` for a single safe component `name`. -/
def isDirectlyUnder (p root : String) : Bool :=
  (root ++ "/").data.isPrefixOf p.data &&
  isSafeName (p.data.drop (root ++ "/").data.length)

/-! ## Association-list lemmas -/

theorem alookup_aset_self {α : Type} (k : String) (v : α) (l : List (String × α)) :
    alookup k (aset k v l) = some v := by
  induction l with
  | nil => simp [aset, alookup]
  | cons p rest ih =>
    obtain ⟨k', v'⟩ := p
    by_cases h : k' = k
    · simp [aset, alookup, h]
    · simp [aset, alookup, h, ih]

theorem alookup_aset_ne {α : Type} {k k' : String} (v : α) (l : List (String × α))
    (h : k' ≠ k) : alookup k' (aset k v l) = alookup k' l := by
  have hne : k ≠ k' := fun hh => h hh.symm
  induction l with
  | nil => simp [aset, alookup, hne]
  | cons p rest ih =>
    obtain ⟨k'', v''⟩ := p
    by_cases hk : k'' = k
    · subst hk
      simp [aset, alookup, hne]
    · simp [aset, alookup, hk, ih]

/-! ## C7: listing pending commands -/

/-- C7: for every agent id, `ListPending` (`GET /commands/{client_id}`)
returns exactly the commands of that agent whose status is pending, as the
order-preserving sublist of the agent's queue (original insertion order);
it is a pure read, and an agent id with no queue yields `[]` rather than an
error. -/
theorem get_commands_lists_pending_in_order (st : ServerState) (client_id : String) :
    (∀ cmd, cmd ∈ get_commands st client_id ↔
      cmd ∈ queueOf st client_id ∧ cmd.status = "pending")
    ∧ List.Sublist (get_commands st client_id) (queueOf st client_id)
    ∧ (alookup client_id st.pending_commands = none → get_commands st client_id = []) := by
  refine ⟨fun cmd => ?_, List.filter_sublist _, fun h => ?_⟩
  · simp [get_commands, List.mem_filter]
  · simp [get_commands, queueOf, h]

/-- Witness for C7 at a concrete state: an unknown agent of the initial
state gets the empty list. -/
theorem get_commands_lists_pending_in_order_witness :
    get_commands initState "agent1" = [] :=
  (get_commands_lists_pending_in_order initState "agent1").2.2 rfl

/-! ## C8: configuration defaults and round trip -/

/-- C8: for an agent id never configured, `GET /client/{client_id}/config`
returns exactly the fixed default (`patterns = {*.log, *.txt, *.json}`,
`directories = {all}`, `maxFileSizeMB = 100`, `scanInterval = 5`); and a
`Set` followed by a `Get` for the same agent returns exactly the four set
values, with no partial merge with the defaults. -/
theorem config_default_and_roundtrip :
    (∀ (st : ServerState) (client_id : String),
      alookup client_id st.client_configs = none →
      get_client_config st client_id =
        { search_patterns := ["*.log", "*.txt", "*.json"], search_directories := ["all"],
          max_file_size_mb := 100, scan_interval := 5 })
    ∧ (∀ (st : ServerState) (client_id : String) (config : ClientConfigBody),
        get_client_config (set_client_config st client_id config) client_id =
          { search_patterns := config.search_patterns,
            search_directories := config.search_directories,
            max_file_size_mb := config.max_file_size_mb,
            scan_interval := config.scan_interval }) := by
  constructor
  · intro st client_id h
    simp [get_client_config, h, default_config]
  · intro st client_id config
    simp [get_client_config, set_client_config, alookup_aset_self]

/-- Witness for C8: the never-configured agent of the initial state gets
the default, and a concrete set/get round trip returns the set values. -/
theorem config_default_and_roundtrip_witness :
    get_client_config initState "agent1" =
      { search_patterns := ["*.log", "*.txt", "*.json"], search_directories := ["all"],
        max_file_size_mb := 100, scan_interval := 5 }
    ∧ get_client_config
        (set_client_config initState "agent1"
          { client_id := "agent1", search_patterns := ["*.cfg"], search_directories := ["/tmp"],
            max_file_size_mb := 7, scan_interval := 2 }) "agent1" =
      { search_patterns := ["*.cfg"], search_directories := ["/tmp"],
        max_file_size_mb := 7, scan_interval := 2 } :=
  ⟨config_default_and_roundtrip.1 initState "agent1" rfl,
   config_default_and_roundtrip.2 initState "agent1"
     { client_id := "agent1", search_patterns := ["*.cfg"], search_directories := ["/tmp"],
       max_file_size_mb := 7, scan_interval := 2 }⟩

/-! ## C10: a failed report changes nothing -/

/-- C10: whenever `POST /files/report` fails with the 400 error, the whole
stored state — file-report lists, every command queue and status, the
client registry, the configurations, the upload ledger and the file store —
is exactly what it was before the call: both raise sites (`json.loads` and
the list comprehension over a non-iterable value) fire before any store is
mutated. -/
theorem report_error_leaves_state_unchanged (st : ServerState) (client_id : String)
    (files_json : Option Json) (now : Nat) (e : Nat)
    (h : (report_files st client_id files_json now).2 = Except.error e) :
    (report_files st client_id files_json now).1 = st := by
  match files_json with
  | none => rfl
  | some j =>
    match hj : jsonIter j with
    | none => simp [report_files, hj]
    | some files_list => simp [report_files, hj] at h

/-- Witness for C10: a report whose payload decodes to the non-iterable
JSON number `3` fails and leaves the initial state intact. -/
theorem report_error_leaves_state_unchanged_witness :
    (report_files initState "agent1" (some (Json.num 3)) 0).2 = Except.error 400
    ∧ (report_files initState "agent1" (some (Json.num 3)) 0).1 = initState :=
  ⟨rfl, report_error_leaves_state_unchanged initState "agent1" (some (Json.num 3)) 0 400 rfl⟩

/-! ## C4: which report payloads are rejected -/

/-- C4 (amended): `POST /files/report` answers 400 exactly when the
payload is not valid JSON or decodes to a non-iterable JSON value; the
element type is never inspected, so in particular any JSON array — whether
or not its elements are strings — is accepted, with the element count
returned. -/
theorem report_rejects_only_unparsable_or_not_iterable (st : ServerState)
    (client_id : String) (now : Nat) :
    (∀ files_json, (report_files st client_id files_json now).2 = Except.error 400 ↔
      files_json = none ∨ ∃ j, files_json = some j ∧ jsonIter j = none)
    ∧ ∀ elems, (report_files st client_id (some (Json.arr elems)) now).2 =
        Except.ok elems.length := by
  constructor
  · intro files_json
    match files_json with
    | none => simp [report_files]
    | some j =>
      match hj : jsonIter j with
      | none => simp [report_files, hj]
      | some xs => simp [report_files, hj]
  · intro elems
    simp [report_files, jsonIter]

/-- Witness for C4 (amended): the non-iterable payload `null` is rejected
with 400, and the two-element array `[1, 2]` is accepted with count 2. -/
theorem report_rejects_only_unparsable_or_not_iterable_witness :
    (report_files initState "agent1" (some Json.null) 0).2 = Except.error 400
    ∧ (report_files initState "agent1" (some (Json.arr [Json.num 1, Json.num 2])) 0).2 =
        Except.ok 2 :=
  ⟨((report_rejects_only_unparsable_or_not_iterable initState "agent1" 0).1
      (some Json.null)).mpr (Or.inr ⟨Json.null, rfl, rfl⟩),
   (report_rejects_only_unparsable_or_not_iterable initState "agent1" 0).2
     [Json.num 1, Json.num 2]⟩

/-- C4 counterexample: the payload `[1, 2]` cannot be decoded as a list of
strings, yet the report call succeeds (with count 2) instead of failing
with the 400 `InvalidInput` error the claim requires. -/
theorem report_accepts_non_string_list :
    isListOfStrings (Json.arr [Json.num 1, Json.num 2]) = false
    ∧ (report_files initState "agent1" (some (Json.arr [Json.num 1, Json.num 2])) 0).2 =
        Except.ok 2 :=
  ⟨rfl, rfl⟩

/-! ## C5: a report replaces the whole stored file list -/

/-- The first component of a successful report call carries the freshly
stamped entries, keyed under the reporting client, whatever the
command-queue branch did. -/
theorem report_files_fst_client_files (st : ServerState) (client_id : String)
    (j : Json) (xs : List Json) (now : Nat) (hiter : jsonIter j = some xs) :
    (report_files st client_id (some j) now).1.client_files =
      aset client_id (xs.map fun f => ({ filepath := f, reported_at := now } : FileEntry))
        st.client_files := by
  simp only [report_files, hiter]
  split <;> rfl

/-- C5: a successful report with payload elements `xs` replaces the
agent's entire stored list: the subsequent `Get` returns exactly
`xs.length` entries, one per reported element in the reported order, each
stamped with a report time `≥` the call time, and nothing of any prior
list survives (last-write-wins). -/
theorem report_replaces_entire_file_list (st : ServerState) (client_id : String)
    (j : Json) (xs : List Json) (now : Nat) (hiter : jsonIter j = some xs) :
    (report_files st client_id (some j) now).2 = Except.ok xs.length
    ∧ get_client_files (report_files st client_id (some j) now).1 client_id =
        xs.map (fun f => { filepath := f, reported_at := now })
    ∧ (get_client_files (report_files st client_id (some j) now).1 client_id).length = xs.length
    ∧ ∀ e ∈ get_client_files (report_files st client_id (some j) now).1 client_id,
        now ≤ e.reported_at := by
  have hget : get_client_files (report_files st client_id (some j) now).1 client_id =
      xs.map (fun f => { filepath := f, reported_at := now }) := by
    simp [get_client_files, report_files_fst_client_files st client_id j xs now hiter,
      alookup_aset_self]
  refine ⟨by simp [report_files, hiter], hget, by simp [hget], ?_⟩
  intro e he
  rw [hget] at he
  obtain ⟨f, _, hf⟩ := List.mem_map.mp he
  simp [← hf]

/-- Witness for C5 at a concrete call: reporting `["a.txt", "b.txt"]` over
a prior one-entry list yields exactly the two new entries, both stamped
with the call time. -/
theorem report_replaces_entire_file_list_witness :
    get_client_files
      (report_files
        (report_files initState "agent1" (some (Json.arr [Json.str "old.txt"])) 1).1
        "agent1" (some (Json.arr [Json.str "a.txt", Json.str "b.txt"])) 2).1 "agent1" =
      [{ filepath := Json.str "a.txt", reported_at := 2 },
       { filepath := Json.str "b.txt", reported_at := 2 }] :=
  (report_replaces_entire_file_list
    (report_files initState "agent1" (some (Json.arr [Json.str "old.txt"])) 1).1
    "agent1" (Json.arr [Json.str "a.txt", Json.str "b.txt"])
    [Json.str "a.txt", Json.str "b.txt"] 2 rfl).2.1

/-! ## C1: a report resolves only the oldest pending scan command -/

/-- Walking the queue flips exactly the first pending scan command: the
prefix without a pending scan and the whole suffix come back untouched. -/
theorem completeFirstScan_of_first (l₁ l₂ : List Command) (c : Command)
    (hscan : c.type = "scan") (hpend : c.status = "pending")
    (hfirst : ∀ b ∈ l₁, ¬(b.type = "scan" ∧ b.status = "pending")) :
    completeFirstScan (l₁ ++ c :: l₂) = l₁ ++ { c with status := "completed" } :: l₂ := by
  induction l₁ with
  | nil => simp [completeFirstScan, hscan, hpend]
  | cons b rest ih =>
    have hb := hfirst b (by simp)
    simp [completeFirstScan, hb, ih (fun x hx => hfirst x (by simp [hx]))]

/-- C1 (amended): when the agent's queue is `l₁ ++ c :: l₂` with `c` its
first pending scan command in insertion order, a successful report flips
exactly `c` to `completed` — every other command of the queue, including
every later pending scan command, is returned bit-for-bit unchanged.  (The
supplied result is not recorded on the command: only its status changes,
as the counterexample shows.) -/
theorem report_completes_only_first_pending_scan (st : ServerState) (client_id : String)
    (j : Json) (xs : List Json) (now : Nat) (l₁ l₂ : List Command) (c : Command)
    (hq : alookup client_id st.pending_commands = some (l₁ ++ c :: l₂))
    (hscan : c.type = "scan") (hpend : c.status = "pending")
    (hfirst : ∀ b ∈ l₁, ¬(b.type = "scan" ∧ b.status = "pending"))
    (hiter : jsonIter j = some xs) :
    (report_files st client_id (some j) now).2 = Except.ok xs.length
    ∧ queueOf (report_files st client_id (some j) now).1 client_id =
        l₁ ++ { c with status := "completed" } :: l₂ := by
  refine ⟨by simp [report_files, hiter], ?_⟩
  simp only [report_files, hiter]
  simp only [queueOf, hq]
  simp [alookup_aset_self, completeFirstScan_of_first l₁ l₂ c hscan hpend hfirst]

/-- Witness for C1 (amended): with two pending scan commands queued, one
report completes the oldest and leaves the newer one pending. -/
theorem report_completes_only_first_pending_scan_witness :
    queueOf (report_files (create_scan_command (create_scan_command initState "agent1" "s1")
        "agent1" "s2") "agent1" (some (Json.arr [Json.str "a.txt"])) 7).1 "agent1" =
      [{ command_id := "s1", type := "scan", status := "completed" },
       { command_id := "s2", type := "scan", status := "pending" }] := by
  have h := report_completes_only_first_pending_scan
    (create_scan_command (create_scan_command initState "agent1" "s1") "agent1" "s2")
    "agent1" (Json.arr [Json.str "a.txt"]) [Json.str "a.txt"] 7
    [] [{ command_id := "s2", type := "scan", status := "pending" }]
    ({ command_id := "s1", type := "scan", status := "pending" })
    rfl rfl rfl (by intro b hb; simp at hb) rfl
  exact h.2

/-- C1 counterexample: the claim also asserts that the resolved command is
marked completed *with the supplied result*; in fact the handler records
nothing but the status flip — after the call the command carries no result
data whatsoever (all of `saved_as`, `filename`, `size`, `completed_at`
stay absent). -/
theorem report_stores_no_result_on_scan_command :
    (report_files (create_scan_command initState "agent1" "s1") "agent1"
        (some (Json.arr [Json.str "a.txt"])) 5).2 = Except.ok 1
    ∧ queueOf (report_files (create_scan_command initState "agent1" "s1") "agent1"
        (some (Json.arr [Json.str "a.txt"])) 5).1 "agent1" =
      [{ command_id := "s1", type := "scan", status := "completed" }]
    ∧ ((queueOf (report_files (create_scan_command initState "agent1" "s1") "agent1"
        (some (Json.arr [Json.str "a.txt"])) 5).1 "agent1").all fun c =>
        c.saved_as.isNone && c.filename.isNone && c.size.isNone && c.completed_at.isNone) =
      true :=
  ⟨rfl, rfl, rfl⟩

/-! ## C2: uploads against an unknown command id -/

/-- C2 (amended): if the agent's queue holds no command with the given id
— whatever its status — the upload answers 404 having changed nothing:
no byte reaches the file store, and queues, ledger, registry and
configurations are exactly as before.  (The claim's weaker hypothesis "no
matching *pending* command" is refuted by the counterexample: the lookup
ignores status.) -/
theorem upload_unknown_command_rejected (st : ServerState)
    (command_id client_id filename : String) (content : List Nat) (now : Nat)
    (h : ∀ c ∈ queueOf st client_id, c.command_id ≠ command_id) :
    upload_file st command_id client_id filename content now = (st, Except.error 404) := by
  have hfind : (queueOf st client_id).find? (fun c => c.command_id = command_id) = none := by
    rw [List.find?_eq_none]
    intro c hc
    simp [h c hc]
  simp [upload_file, hfind]

/-- Witness for C2 (amended): uploading against the empty initial state is
rejected with 404 and the state is unchanged. -/
theorem upload_unknown_command_rejected_witness :
    upload_file initState "nope" "agent1" "a.txt" [1, 2] 0 = (initState, Except.error 404) :=
  upload_unknown_command_rejected initState "nope" "agent1" "a.txt" [1, 2] 0
    (by intro c hc; simp [queueOf, initState, alookup] at hc)

/-- C2 counterexample: at `stCompletedUpload` no pending command matches
`("u1", "agent1")` — the only command with that id is already completed —
yet a new upload against it is *accepted*: it returns success, appends a
second ledger entry and writes a second file, where the claim requires a
`NotFound` rejection with no byte written. -/
theorem upload_accepts_completed_command :
    ((queueOf stCompletedUpload "agent1").all fun c =>
      !(c.command_id == "u1" && c.status == "pending")) = true
    ∧ (queueOf stCompletedUpload "agent1").length = 1
    ∧ (upload_file stCompletedUpload "u1" "agent1" "again.txt" [9] 1).2 = Except.ok "u1"
    ∧ (upload_file stCompletedUpload "u1" "agent1" "again.txt" [9] 1).1.uploaded_files_metadata.length = 2
    ∧ (upload_file stCompletedUpload "u1" "agent1" "again.txt" [9] 1).1.file_store.length = 2 :=
  ⟨rfl, rfl, rfl, rfl, rfl⟩

/-! ## Positional and membership lemmas about the two queue updates -/

/-- The update `completeFirstScan` leaves the id of every position unchanged. -/
theorem completeFirstScan_map_id (l : List Command) :
    (completeFirstScan l).map Command.command_id = l.map Command.command_id := by
  induction l with
  | nil => rfl
  | cons cmd rest ih =>
    by_cases h : cmd.type = "scan" ∧ cmd.status = "pending"
    · simp [completeFirstScan, h]
    · simp [completeFirstScan, h, ih]

/-- The update `completeById` leaves the id of every position unchanged whenever the
update function does. -/
theorem completeById_map_id (X : String) (upd : Command → Command)
    (hupd : ∀ c, (upd c).command_id = c.command_id) (l : List Command) :
    (completeById X upd l).map Command.command_id = l.map Command.command_id := by
  induction l with
  | nil => rfl
  | cons cmd rest ih =>
    by_cases h : cmd.command_id = X
    · simp [completeById, h, hupd]
    · simp [completeById, h, ih]

/-- Every position of `completeFirstScan l` holds either the original
command or, when the original was a pending scan, its completed copy. -/
theorem completeFirstScan_get? (l : List Command) (i : Nat) (a : Command)
    (h : l[i]? = some a) :
    (completeFirstScan l)[i]? = some a ∨
      (a.type = "scan" ∧ a.status = "pending" ∧
        (completeFirstScan l)[i]? = some { a with status := "completed" }) := by
  induction l generalizing i with
  | nil => simp at h
  | cons cmd rest ih =>
    by_cases hc : cmd.type = "scan" ∧ cmd.status = "pending"
    · have hstep : completeFirstScan (cmd :: rest) =
          { cmd with status := "completed" } :: rest := by
        simp [completeFirstScan, hc]
      match i with
      | 0 =>
        simp only [List.getElem?_cons_zero, Option.some.injEq] at h
        subst h
        exact Or.inr ⟨hc.1, hc.2, by simp [hstep]⟩
      | i + 1 =>
        simp only [List.getElem?_cons_succ] at h
        exact Or.inl (by simp [hstep, h])
    · have hstep : completeFirstScan (cmd :: rest) = cmd :: completeFirstScan rest := by
        simp [completeFirstScan, hc]
      match i with
      | 0 =>
        simp only [List.getElem?_cons_zero, Option.some.injEq] at h
        subst h
        exact Or.inl (by simp [hstep])
      | i + 1 =>
        simp only [List.getElem?_cons_succ] at h
        rcases ih i h with h' | ⟨h1, h2, h3⟩
        · exact Or.inl (by simp [hstep, h'])
        · exact Or.inr ⟨h1, h2, by simp [hstep, h3]⟩

/-- Every position of `completeById X upd l` holds either the original
command or, when the original's id was `X`, its updated copy. -/
theorem completeById_get? (X : String) (upd : Command → Command) (l : List Command)
    (i : Nat) (a : Command) (h : l[i]? = some a) :
    (completeById X upd l)[i]? = some a ∨
      (a.command_id = X ∧ (completeById X upd l)[i]? = some (upd a)) := by
  induction l generalizing i with
  | nil => simp at h
  | cons cmd rest ih =>
    by_cases hc : cmd.command_id = X
    · have hstep : completeById X upd (cmd :: rest) = upd cmd :: rest := by
        simp [completeById, hc]
      match i with
      | 0 =>
        simp only [List.getElem?_cons_zero, Option.some.injEq] at h
        subst h
        exact Or.inr ⟨hc, by simp [hstep]⟩
      | i + 1 =>
        simp only [List.getElem?_cons_succ] at h
        exact Or.inl (by simp [hstep, h])
    · have hstep : completeById X upd (cmd :: rest) = cmd :: completeById X upd rest := by
        simp [completeById, hc]
      match i with
      | 0 =>
        simp only [List.getElem?_cons_zero, Option.some.injEq] at h
        subst h
        exact Or.inl (by simp [hstep])
      | i + 1 =>
        simp only [List.getElem?_cons_succ] at h
        rcases ih i h with h' | ⟨h1, h2⟩
        · exact Or.inl (by simp [hstep, h'])
        · exact Or.inr ⟨h1, by simp [hstep, h2]⟩

/-- Membership version of `completeFirstScan_get?`. -/
theorem completeFirstScan_mem (l : List Command) (c' : Command)
    (h : c' ∈ completeFirstScan l) :
    c' ∈ l ∨ ∃ c ∈ l, c.type = "scan" ∧ c.status = "pending" ∧
      c' = { c with status := "completed" } := by
  induction l with
  | nil => simp [completeFirstScan] at h
  | cons cmd rest ih =>
    by_cases hc : cmd.type = "scan" ∧ cmd.status = "pending"
    · have hstep : completeFirstScan (cmd :: rest) =
          { cmd with status := "completed" } :: rest := by
        simp [completeFirstScan, hc]
      rw [hstep] at h
      rcases List.mem_cons.mp h with h | h
      · exact Or.inr ⟨cmd, by simp, hc.1, hc.2, h⟩
      · exact Or.inl (by simp [h])
    · have hstep : completeFirstScan (cmd :: rest) = cmd :: completeFirstScan rest := by
        simp [completeFirstScan, hc]
      rw [hstep] at h
      rcases List.mem_cons.mp h with h | h
      · exact Or.inl (by simp [h])
      · rcases ih h with h' | ⟨c, hcmem, h1, h2, h3⟩
        · exact Or.inl (by simp [h'])
        · exact Or.inr ⟨c, by simp [hcmem], h1, h2, h3⟩

/-- Membership version of `completeById_get?`. -/
theorem completeById_mem (X : String) (upd : Command → Command) (l : List Command)
    (c' : Command) (h : c' ∈ completeById X upd l) :
    c' ∈ l ∨ ∃ c ∈ l, c.command_id = X ∧ c' = upd c := by
  induction l with
  | nil => simp [completeById] at h
  | cons cmd rest ih =>
    by_cases hc : cmd.command_id = X
    · have hstep : completeById X upd (cmd :: rest) = upd cmd :: rest := by
        simp [completeById, hc]
      rw [hstep] at h
      rcases List.mem_cons.mp h with h | h
      · exact Or.inr ⟨cmd, by simp, hc, h⟩
      · exact Or.inl (by simp [h])
    · have hstep : completeById X upd (cmd :: rest) = cmd :: completeById X upd rest := by
        simp [completeById, hc]
      rw [hstep] at h
      rcases List.mem_cons.mp h with h | h
      · exact Or.inl (by simp [h])
      · rcases ih h with h' | ⟨c, hcmem, h1, h2⟩
        · exact Or.inl (by simp [h'])
        · exact Or.inr ⟨c, by simp [hcmem], h1, h2⟩

/-- The update `completeById` touches exactly the first id match. -/
theorem completeById_of_first (X : String) (upd : Command → Command)
    (l₁ l₂ : List Command) (c : Command) (hc : c.command_id = X)
    (hfirst : ∀ b ∈ l₁, b.command_id ≠ X) :
    completeById X upd (l₁ ++ c :: l₂) = l₁ ++ upd c :: l₂ := by
  induction l₁ with
  | nil => simp [completeById, hc]
  | cons b rest ih =>
    have hb := hfirst b (by simp)
    simp [completeById, hb, ih (fun x hx => hfirst x (by simp [hx]))]

/-- A successful `find?` splits its list at the first hit. -/
theorem find?_split {α : Type} (p : α → Bool) (l : List α) (a : α)
    (h : l.find? p = some a) :
    ∃ l₁ l₂, l = l₁ ++ a :: l₂ ∧ ∀ b ∈ l₁, p b = false := by
  induction l with
  | nil => simp [List.find?] at h
  | cons x rest ih =>
    by_cases hx : p x
    · refine ⟨[], rest, ?_, by simp⟩
      simp [List.find?, hx] at h
      simp [h]
    · simp only [List.find?, Bool.of_not_eq_true hx] at h
      obtain ⟨l₁, l₂, hsplit, hfalse⟩ := ih h
      exact ⟨x :: l₁, l₂, by simp [hsplit], by
        intro b hb
        rcases List.mem_cons.mp hb with hb | hb
        · simp [hb, Bool.of_not_eq_true hx]
        · exact hfalse b hb⟩

/-! ## The reachable-state invariant -/

theorem invariant_init : Invariant initState := by
  constructor <;> simp [queueOf, initState, alookup, cmdIds]

/-- The invariant only reads the queues and the ledger, so it transfers
between states agreeing on those two stores. -/
theorem invariant_of_eq (st st' : ServerState)
    (hp : st'.pending_commands = st.pending_commands)
    (hl : st'.uploaded_files_metadata = st.uploaded_files_metadata)
    (hinv : Invariant st) : Invariant st' := by
  have hq : ∀ cid, queueOf st' cid = queueOf st cid := fun cid => by simp [queueOf, hp]
  constructor
  · intro cid
    rw [hq cid]
    exact hinv.nodup_ids cid
  · intro cid cid' hne
    rw [hq cid, hq cid']
    exact hinv.disjoint_ids cid cid' hne
  · intro cid
    rw [hq cid]
    exact hinv.statuses cid
  · rw [hl]
    intro e he cid
    rw [hq cid]
    exact hinv.ledger_completed e he cid
  · rw [hl]
    intro e he
    obtain ⟨cid, c, hc, hid⟩ := hinv.ledger_has_cmd e he
    exact ⟨cid, c, by rw [hq cid]; exact hc, hid⟩

/-- Reading any queue of a state whose `pending_commands` is an `aset`. -/
theorem queueOf_set (st : ServerState) (cid : String) (q' : List Command)
    (st' : ServerState) (hp : st'.pending_commands = aset cid q' st.pending_commands)
    (cid' : String) :
    queueOf st' cid' = if cid' = cid then q' else queueOf st cid' := by
  by_cases h : cid' = cid
  · subst h
    simp [queueOf, hp, alookup_aset_self]
  · simp [queueOf, hp, alookup_aset_ne _ _ h, h]

/-- What a report call does to the two stores the invariant watches: the
ledger is untouched, and the queues are either untouched or the reporting
client's queue goes through `completeFirstScan`. -/
theorem report_files_fst_cases (st : ServerState) (cid : String)
    (files_json : Option Json) (now : Nat) :
    ((report_files st cid files_json now).1.pending_commands = st.pending_commands ∨
      (report_files st cid files_json now).1.pending_commands =
        aset cid (completeFirstScan (queueOf st cid)) st.pending_commands)
    ∧ (report_files st cid files_json now).1.uploaded_files_metadata =
        st.uploaded_files_metadata := by
  match files_json with
  | none => exact ⟨Or.inl rfl, rfl⟩
  | some j =>
    match hj : jsonIter j with
    | none => simp [report_files, hj]
    | some xs =>
      cases halo : alookup cid st.pending_commands with
      | none =>
        refine ⟨Or.inl ?_, ?_⟩ <;> simp [report_files, hj, halo]
      | some q =>
        refine ⟨Or.inr ?_, ?_⟩ <;> simp [report_files, hj, halo, queueOf]

/-- An upload with no id match answers 404 with the state unchanged. -/
theorem upload_file_fst_of_none (st : ServerState) (X cid fn : String)
    (content : List Nat) (now : Nat)
    (h : (queueOf st cid).find? (fun c' => c'.command_id = X) = none) :
    upload_file st X cid fn content now = (st, Except.error 404) := by
  simp [upload_file, h]

/-- An upload whose id lookup hits writes the file, routes the client's
queue through `completeById`, and appends one ledger entry. -/
theorem upload_file_eq_of_found (st : ServerState) (X cid fn : String)
    (content : List Nat) (now : Nat) (c : Command)
    (h : (queueOf st cid).find? (fun c' => c'.command_id = X) = some c) :
    upload_file st X cid fn content now =
      ({ st with
          file_store := aset (build_save_path cid now fn) content st.file_store
          pending_commands := aset cid (completeById X
            (uploadUpdate (build_save_path cid now fn) fn content.length now)
            (queueOf st cid)) st.pending_commands
          uploaded_files_metadata := st.uploaded_files_metadata ++
            [{ command_id := X, client_id := cid, filename := fn,
               saved_path := build_save_path cid now fn, size := content.length,
               uploaded_at := now }] },
        Except.ok X) := by
  simp [upload_file, h]

/-- Appending a freshly identified pending command preserves the
invariant. -/
theorem invariant_appendCommand (st : ServerState) (cid : String) (cmd : Command)
    (hinv : Invariant st)
    (hfresh : ∀ cid', ∀ c ∈ queueOf st cid', c.command_id ≠ cmd.command_id)
    (hpend : cmd.status = "pending") :
    Invariant (appendCommand st cid cmd) := by
  have hq : ∀ cid', queueOf (appendCommand st cid cmd) cid' =
      if cid' = cid then queueOf st cid ++ [cmd] else queueOf st cid' :=
    fun cid' => queueOf_set st cid _ _ rfl cid'
  have hled : (appendCommand st cid cmd).uploaded_files_metadata =
      st.uploaded_files_metadata := rfl
  constructor
  · intro cid'
    rw [hq cid']
    by_cases h : cid' = cid
    · rw [if_pos h]
      simp only [cmdIds, List.map_append, List.map_cons, List.map_nil]
      refine List.pairwise_append.mpr ⟨hinv.nodup_ids cid, by simp, ?_⟩
      intro a ha b hb
      simp only [List.mem_singleton] at hb
      subst hb
      obtain ⟨c, hc, rfl⟩ := List.mem_map.mp ha
      exact hfresh cid c hc
    · rw [if_neg h]
      exact hinv.nodup_ids cid'
  · intro cid₁ cid₂ hne x hx
    rw [hq cid₁] at hx
    rw [hq cid₂]
    by_cases h1 : cid₁ = cid <;> by_cases h2 : cid₂ = cid
    · exact absurd (h1.trans h2.symm) hne
    · rw [if_pos h1] at hx
      rw [if_neg h2]
      simp only [cmdIds, List.map_append, List.map_cons, List.map_nil] at hx
      rcases List.mem_append.mp hx with hx | hx
      · exact hinv.disjoint_ids cid cid₂ (h1 ▸ hne) x hx
      · simp only [List.mem_singleton] at hx
        subst hx
        intro hmem
        obtain ⟨c, hc, hcid⟩ := List.mem_map.mp hmem
        exact hfresh cid₂ c hc hcid
    · rw [if_neg h1] at hx
      rw [if_pos h2]
      simp only [cmdIds, List.map_append, List.map_cons, List.map_nil]
      intro hmem
      rcases List.mem_append.mp hmem with hm | hm
      · exact hinv.disjoint_ids cid₁ cid (h2 ▸ hne) x hx hm
      · simp only [List.mem_singleton] at hm
        obtain ⟨c, hc, hcid⟩ := List.mem_map.mp hx
        exact hfresh cid₁ c hc (hcid.trans hm)
    · rw [if_neg h1] at hx
      rw [if_neg h2]
      exact hinv.disjoint_ids cid₁ cid₂ hne x hx
  · intro cid' c hc
    rw [hq cid'] at hc
    by_cases h : cid' = cid
    · rw [if_pos h] at hc
      rcases List.mem_append.mp hc with hm | hm
      · exact hinv.statuses cid c hm
      · simp only [List.mem_singleton] at hm
        subst hm
        exact Or.inl hpend
    · rw [if_neg h] at hc
      exact hinv.statuses cid' c hc
  · intro e he cid' c hc hid
    rw [hled] at he
    rw [hq cid'] at hc
    by_cases h : cid' = cid
    · rw [if_pos h] at hc
      rcases List.mem_append.mp hc with hm | hm
      · exact hinv.ledger_completed e he cid c hm hid
      · simp only [List.mem_singleton] at hm
        subst hm
        obtain ⟨cid₀, c₀, hc₀, hid₀⟩ := hinv.ledger_has_cmd e he
        exact absurd (hid₀.trans hid.symm) (hfresh cid₀ c₀ hc₀)
    · rw [if_neg h] at hc
      exact hinv.ledger_completed e he cid' c hc hid
  · intro e he
    rw [hled] at he
    obtain ⟨cid₀, c₀, hc₀, hid₀⟩ := hinv.ledger_has_cmd e he
    refine ⟨cid₀, c₀, ?_, hid₀⟩
    rw [hq cid₀]
    by_cases h : cid₀ = cid
    · rw [if_pos h]
      exact List.mem_append.mpr (Or.inl (h ▸ hc₀))
    · rw [if_neg h]
      exact hc₀

/-- A report call preserves the invariant. -/
theorem invariant_report (st : ServerState) (cid : String) (files_json : Option Json)
    (now : Nat) (hinv : Invariant st) :
    Invariant (report_files st cid files_json now).1 := by
  obtain ⟨hp | hp, hl⟩ := report_files_fst_cases st cid files_json now
  · exact invariant_of_eq st _ hp hl hinv
  · have hq : ∀ cid', queueOf (report_files st cid files_json now).1 cid' =
        if cid' = cid then completeFirstScan (queueOf st cid) else queueOf st cid' :=
      fun cid' => queueOf_set st cid _ _ hp cid'
    have hids : cmdIds (completeFirstScan (queueOf st cid)) = cmdIds (queueOf st cid) :=
      completeFirstScan_map_id _
    constructor
    · intro cid'
      rw [hq cid']
      by_cases h : cid' = cid
      · rw [if_pos h, hids]
        exact hinv.nodup_ids cid
      · rw [if_neg h]
        exact hinv.nodup_ids cid'
    · intro cid₁ cid₂ hne x hx
      rw [hq cid₁] at hx
      rw [hq cid₂]
      by_cases h1 : cid₁ = cid <;> by_cases h2 : cid₂ = cid
      · exact absurd (h1.trans h2.symm) hne
      · rw [if_pos h1, hids] at hx
        rw [if_neg h2]
        exact hinv.disjoint_ids cid cid₂ (h1 ▸ hne) x hx
      · rw [if_neg h1] at hx
        rw [if_pos h2, hids]
        exact hinv.disjoint_ids cid₁ cid (h2 ▸ hne) x hx
      · rw [if_neg h1] at hx
        rw [if_neg h2]
        exact hinv.disjoint_ids cid₁ cid₂ hne x hx
    · intro cid' c hc
      rw [hq cid'] at hc
      by_cases h : cid' = cid
      · rw [if_pos h] at hc
        rcases completeFirstScan_mem _ _ hc with hm | ⟨c₀, _, _, _, hcc⟩
        · exact hinv.statuses cid c hm
        · subst hcc
          exact Or.inr rfl
      · rw [if_neg h] at hc
        exact hinv.statuses cid' c hc
    · intro e he cid' c hc hid
      rw [hl] at he
      rw [hq cid'] at hc
      by_cases h : cid' = cid
      · rw [if_pos h] at hc
        rcases completeFirstScan_mem _ _ hc with hm | ⟨c₀, _, _, _, hcc⟩
        · exact hinv.ledger_completed e he cid c hm hid
        · subst hcc
          rfl
      · rw [if_neg h] at hc
        exact hinv.ledger_completed e he cid' c hc hid
    · intro e he
      rw [hl] at he
      obtain ⟨cid₀, c₀, hc₀, hid₀⟩ := hinv.ledger_has_cmd e he
      by_cases h : cid₀ = cid
      · subst h
        have hmem : c₀.command_id ∈ cmdIds (completeFirstScan (queueOf st cid₀)) := by
          rw [hids]
          exact List.mem_map.mpr ⟨c₀, hc₀, rfl⟩
        obtain ⟨c', hc', hid'⟩ := List.mem_map.mp hmem
        refine ⟨cid₀, c', ?_, hid'.trans hid₀⟩
        rw [hq cid₀, if_pos rfl]
        exact hc'
      · refine ⟨cid₀, c₀, ?_, hid₀⟩
        rw [hq cid₀, if_neg h]
        exact hc₀

/-- An upload call preserves the invariant. -/
theorem invariant_upload (st : ServerState) (X cid fn : String) (content : List Nat)
    (now : Nat) (hinv : Invariant st) :
    Invariant (upload_file st X cid fn content now).1 := by
  cases hfind : (queueOf st cid).find? (fun c' => c'.command_id = X) with
  | none =>
    have h : (upload_file st X cid fn content now).1 = st := by
      rw [upload_file_fst_of_none st X cid fn content now hfind]
    rw [h]
    exact hinv
  | some c =>
    have heq := upload_file_eq_of_found st X cid fn content now c hfind
    have hcmem : c ∈ queueOf st cid := List.mem_of_find?_eq_some hfind
    have hcid : c.command_id = X := by simpa using List.find?_some hfind
    obtain ⟨l₁, l₂, hsplit, hfalse⟩ := find?_split _ _ _ hfind
    have hfalse' : ∀ b ∈ l₁, b.command_id ≠ X := by
      intro b hb
      simpa using hfalse b hb
    have hq' : completeById X (uploadUpdate (build_save_path cid now fn) fn content.length now)
        (queueOf st cid) =
        l₁ ++ uploadUpdate (build_save_path cid now fn) fn content.length now c :: l₂ := by
      rw [hsplit]
      exact completeById_of_first X _ l₁ l₂ c hcid hfalse'
    have hidseq : cmdIds (completeById X
        (uploadUpdate (build_save_path cid now fn) fn content.length now) (queueOf st cid)) =
        cmdIds (queueOf st cid) :=
      completeById_map_id X
        (uploadUpdate (build_save_path cid now fn) fn content.length now)
        (fun _ => rfl) (queueOf st cid)
    have hp : (upload_file st X cid fn content now).1.pending_commands =
        aset cid (completeById X
          (uploadUpdate (build_save_path cid now fn) fn content.length now)
          (queueOf st cid)) st.pending_commands := by
      rw [heq]
    have hl : (upload_file st X cid fn content now).1.uploaded_files_metadata =
        st.uploaded_files_metadata ++
          [{ command_id := X, client_id := cid, filename := fn,
             saved_path := build_save_path cid now fn, size := content.length,
             uploaded_at := now }] := by
      rw [heq]
    have hq : ∀ cid', queueOf (upload_file st X cid fn content now).1 cid' =
        if cid' = cid then completeById X
          (uploadUpdate (build_save_path cid now fn) fn content.length now)
          (queueOf st cid) else queueOf st cid' :=
      fun cid' => queueOf_set st cid _ _ hp cid'
    constructor
    · intro cid'
      rw [hq cid']
      by_cases h : cid' = cid
      · rw [if_pos h, hidseq]
        exact hinv.nodup_ids cid
      · rw [if_neg h]
        exact hinv.nodup_ids cid'
    · intro cid₁ cid₂ hne x hx
      rw [hq cid₁] at hx
      rw [hq cid₂]
      by_cases h1 : cid₁ = cid <;> by_cases h2 : cid₂ = cid
      · exact absurd (h1.trans h2.symm) hne
      · rw [if_pos h1, hidseq] at hx
        rw [if_neg h2]
        exact hinv.disjoint_ids cid cid₂ (h1 ▸ hne) x hx
      · rw [if_neg h1] at hx
        rw [if_pos h2, hidseq]
        exact hinv.disjoint_ids cid₁ cid (h2 ▸ hne) x hx
      · rw [if_neg h1] at hx
        rw [if_neg h2]
        exact hinv.disjoint_ids cid₁ cid₂ hne x hx
    · intro cid' c' hc'
      rw [hq cid'] at hc'
      by_cases h : cid' = cid
      · rw [if_pos h] at hc'
        rcases completeById_mem _ _ _ _ hc' with hm | ⟨c₀, _, _, hcc⟩
        · exact hinv.statuses cid c' hm
        · subst hcc
          exact Or.inr rfl
      · rw [if_neg h] at hc'
        exact hinv.statuses cid' c' hc'
    · intro e he cid' c' hc' hid'
      rw [hl] at he
      rcases List.mem_append.mp he with he | he
      · rw [hq cid'] at hc'
        by_cases h : cid' = cid
        · rw [if_pos h] at hc'
          rcases completeById_mem _ _ _ _ hc' with hm | ⟨c₀, _, _, hcc⟩
          · exact hinv.ledger_completed e he cid c' hm hid'
          · subst hcc
            rfl
        · rw [if_neg h] at hc'
          exact hinv.ledger_completed e he cid' c' hc' hid'
      · simp only [List.mem_singleton] at he
        subst he
        have hidX : c'.command_id = X := hid'
        rw [hq cid'] at hc'
        by_cases h : cid' = cid
        · rw [if_pos h, hq'] at hc'
          rcases List.mem_append.mp hc' with hm | hm
          · exact absurd hidX (hfalse' c' hm)
          · rcases List.mem_cons.mp hm with hm | hm
            · subst hm
              rfl
            · exfalso
              have hpair := hinv.nodup_ids cid
              rw [hsplit] at hpair
              simp only [cmdIds, List.map_append, List.map_cons] at hpair
              have hpc := (List.pairwise_append.mp hpair).2.1
              have hhead := (List.pairwise_cons.mp hpc).1
              exact hhead c'.command_id (List.mem_map.mpr ⟨c', hm, rfl⟩)
                (hcid.trans hidX.symm)
        · rw [if_neg h] at hc'
          exfalso
          have hxin : X ∈ cmdIds (queueOf st cid) := List.mem_map.mpr ⟨c, hcmem, hcid⟩
          exact hinv.disjoint_ids cid cid' (fun hh => h hh.symm) X hxin
            (List.mem_map.mpr ⟨c', hc', hidX⟩)
    · intro e he
      rw [hl] at he
      rcases List.mem_append.mp he with he | he
      · obtain ⟨cid₀, c₀, hc₀, hid₀⟩ := hinv.ledger_has_cmd e he
        by_cases h : cid₀ = cid
        · have hmem : c₀.command_id ∈ cmdIds (completeById X
              (uploadUpdate (build_save_path cid now fn) fn content.length now)
              (queueOf st cid)) := by
            rw [hidseq]
            exact List.mem_map.mpr ⟨c₀, h ▸ hc₀, rfl⟩
          obtain ⟨c'', hc'', hid''⟩ := List.mem_map.mp hmem
          refine ⟨cid, c'', ?_, hid''.trans hid₀⟩
          rw [hq cid, if_pos rfl]
          exact hc''
        · exact ⟨cid₀, c₀, by rw [hq cid₀, if_neg h]; exact hc₀, hid₀⟩
      · simp only [List.mem_singleton] at he
        subst he
        refine ⟨cid, uploadUpdate (build_save_path cid now fn) fn content.length now c,
          ?_, hcid⟩
        rw [hq cid, if_pos rfl, hq']
        exact List.mem_append.mpr (Or.inr (List.mem_cons_self _ _))

/-- Every reachable state satisfies the invariant. -/
theorem reachable_invariant (st : ServerState) (h : Reachable st) : Invariant st := by
  induction h with
  | init => exact invariant_init
  | step st' op hre hfresh ih =>
    cases op with
    | createScan cid id =>
      exact invariant_appendCommand st' cid _ ih (fun cid' c hc => hfresh cid' c hc) rfl
    | createUpload cid id fp =>
      exact invariant_appendCommand st' cid _ ih (fun cid' c hc => hfresh cid' c hc) rfl
    | createReboot cid id =>
      exact invariant_appendCommand st' cid _ ih (fun cid' c hc => hfresh cid' c hc) rfl
    | createShutdown cid id =>
      exact invariant_appendCommand st' cid _ ih (fun cid' c hc => hfresh cid' c hc) rfl
    | report cid j now => exact invariant_report st' cid j now ih
    | clientStatus cid ip now => exact invariant_of_eq st' _ rfl rfl ih
    | setConfig cid cfg => exact invariant_of_eq st' _ rfl rfl ih
    | upload X cid fn content now => exact invariant_upload st' X cid fn content now ih

/-- Appending a command elsewhere (or to the same queue) never disturbs an
existing position. -/
theorem appendCommand_get?_preserved (st : ServerState) (cid₀ : String) (cmd : Command)
    (cid : String) (i : Nat) (c : Command) (hc : (queueOf st cid)[i]? = some c) :
    (queueOf (appendCommand st cid₀ cmd) cid)[i]? = some c := by
  rw [queueOf_set st cid₀ _ _ rfl cid]
  by_cases h : cid = cid₀
  · rw [if_pos h, ← h]
    obtain ⟨hlt, _⟩ := List.getElem?_eq_some.mp hc
    rw [List.getElem?_append_left hlt]
    exact hc
  · rw [if_neg h]
    exact hc

/-! ## C6: the status lifecycle -/

/-- C6: in every reachable state every command's status is `pending` or
`completed` (no `failed` or `expired` status ever appears), and no
operation of the system moves a command's status away from `completed`:
whatever request is served next, a completed command is still there, at
its position, with its id, still completed. -/
theorem command_status_lifecycle :
    (∀ st, Reachable st → ∀ cid, ∀ c ∈ queueOf st cid,
      c.status = "pending" ∨ c.status = "completed")
    ∧ (∀ (st : ServerState) (op : Op) (cid : String) (i : Nat) (c : Command),
        (queueOf st cid)[i]? = some c → c.status = "completed" →
        ∃ c', (queueOf (applyOp st op) cid)[i]? = some c' ∧
          c'.command_id = c.command_id ∧ c'.status = "completed") := by
  constructor
  · intro st hre cid c hc
    exact (reachable_invariant st hre).statuses cid c hc
  · intro st op cid i c hc hcomp
    cases op with
    | createScan cid₀ id =>
      exact ⟨c, appendCommand_get?_preserved st cid₀ _ cid i c hc, rfl, hcomp⟩
    | createUpload cid₀ id fp =>
      exact ⟨c, appendCommand_get?_preserved st cid₀ _ cid i c hc, rfl, hcomp⟩
    | createReboot cid₀ id =>
      exact ⟨c, appendCommand_get?_preserved st cid₀ _ cid i c hc, rfl, hcomp⟩
    | createShutdown cid₀ id =>
      exact ⟨c, appendCommand_get?_preserved st cid₀ _ cid i c hc, rfl, hcomp⟩
    | report cid₀ j now =>
      show ∃ c', (queueOf (report_files st cid₀ j now).1 cid)[i]? = some c' ∧
        c'.command_id = c.command_id ∧ c'.status = "completed"
      obtain ⟨hp | hp, _⟩ := report_files_fst_cases st cid₀ j now
      · have hqe : queueOf (report_files st cid₀ j now).1 cid = queueOf st cid := by
          simp [queueOf, hp]
        exact ⟨c, by rw [hqe]; exact hc, rfl, hcomp⟩
      · rw [queueOf_set st cid₀ _ _ hp cid]
        by_cases h : cid = cid₀
        · rw [if_pos h]
          rw [h] at hc
          rcases completeFirstScan_get? (queueOf st cid₀) i c hc with h' | ⟨_, h2, _⟩
          · exact ⟨c, h', rfl, hcomp⟩
          · rw [hcomp] at h2
            exact absurd h2 (by decide)
        · rw [if_neg h]
          exact ⟨c, hc, rfl, hcomp⟩
    | clientStatus cid₀ ip now => exact ⟨c, hc, rfl, hcomp⟩
    | setConfig cid₀ cfg => exact ⟨c, hc, rfl, hcomp⟩
    | upload X cid₀ fn content now =>
      show ∃ c', (queueOf (upload_file st X cid₀ fn content now).1 cid)[i]? = some c' ∧
        c'.command_id = c.command_id ∧ c'.status = "completed"
      cases hfind : (queueOf st cid₀).find? (fun c' => c'.command_id = X) with
      | none =>
        have h1 : (upload_file st X cid₀ fn content now).1 = st := by
          rw [upload_file_fst_of_none st X cid₀ fn content now hfind]
        exact ⟨c, by rw [h1]; exact hc, rfl, hcomp⟩
      | some c₀ =>
        have heq := upload_file_eq_of_found st X cid₀ fn content now c₀ hfind
        have hp : (upload_file st X cid₀ fn content now).1.pending_commands =
            aset cid₀ (completeById X
              (uploadUpdate (build_save_path cid₀ now fn) fn content.length now)
              (queueOf st cid₀)) st.pending_commands := by
          rw [heq]
        rw [queueOf_set st cid₀ _ _ hp cid]
        by_cases h : cid = cid₀
        · rw [if_pos h]
          rw [h] at hc
          rcases completeById_get? X _ (queueOf st cid₀) i c hc with h' | ⟨_, h'⟩
          · exact ⟨c, h', rfl, hcomp⟩
          · exact ⟨_, h', rfl, rfl⟩
        · rw [if_neg h]
          exact ⟨c, hc, rfl, hcomp⟩

/-- Witness for C6 at concrete inputs: the freshly created scan command
has a lifecycle status, and after its completion a further operation
leaves it completed at position 0 with its id. -/
theorem command_status_lifecycle_witness :
    (({ command_id := "s1", type := "scan", status := "pending" } : Command).status = "pending"
      ∨ ({ command_id := "s1", type := "scan", status := "pending" } : Command).status =
          "completed")
    ∧ ∃ c', (queueOf (applyOp demoCompletedScan (Op.createScan "agent1" "s2")) "agent1")[0]? =
          some c' ∧ c'.command_id = "s1" ∧ c'.status = "completed" := by
  constructor
  · exact command_status_lifecycle.1 (applyOp initState (Op.createScan "agent1" "s1"))
      (Reachable.step initState _ Reachable.init
        (by intro cid c hc; simp [queueOf, initState, alookup] at hc))
      "agent1" _ (by decide)
  · obtain ⟨c', h1, h2, h3⟩ := command_status_lifecycle.2 demoCompletedScan
      (Op.createScan "agent1" "s2") "agent1" 0
      ({ command_id := "s1", type := "scan", status := "completed" }) (by decide) rfl
    exact ⟨c', h1, by rw [h2], h3⟩

/-- Lookup via `find?` skips a prefix with no hit. -/
theorem find?_append_of_none {α : Type} (p : α → Bool) (l₁ l₂ : List α)
    (h : l₁.find? p = none) : (l₁ ++ l₂).find? p = l₂.find? p := by
  induction l₁ with
  | nil => rfl
  | cons x rest ih =>
    have hx : p x = false := by
      by_cases hx : p x
      · rw [List.find?_cons_of_pos _ hx] at h
        exact absurd h (by simp)
      · simpa using hx
    rw [List.find?_cons_of_neg _ (by simp [hx])] at h
    rw [List.cons_append, List.find?_cons_of_neg _ (by simp [hx])]
    exact ih h

/-! ## C3: upload against a pending command, then download -/

/-- C3: in any reachable state, uploading bytes `B` under filename `F`
against a pending command of the agent succeeds; exactly that command
(same position, rest of the queue untouched) becomes completed and carries
the result metadata; exactly one ledger entry is appended, holding the
command id, the agent id, the filename `F` and the size `|B|`; and an
immediately following download by that command id returns exactly the
bytes `B` with the original filename `F`. -/
theorem upload_completes_and_download_round_trips (st : ServerState)
    (hre : Reachable st) (client_id command_id F : String) (B : List Nat) (now : Nat)
    (c : Command) (hc : c ∈ queueOf st client_id) (hid : c.command_id = command_id)
    (hpend : c.status = "pending") :
    (upload_file st command_id client_id F B now).2 = Except.ok command_id
    ∧ (∃ l₁ l₂, queueOf st client_id = l₁ ++ c :: l₂ ∧
        queueOf (upload_file st command_id client_id F B now).1 client_id =
          l₁ ++ uploadUpdate (build_save_path client_id now F) F B.length now c :: l₂)
    ∧ (upload_file st command_id client_id F B now).1.uploaded_files_metadata =
        st.uploaded_files_metadata ++
          [{ command_id := command_id, client_id := client_id, filename := F,
             saved_path := build_save_path client_id now F, size := B.length,
             uploaded_at := now }]
    ∧ download_file (upload_file st command_id client_id F B now).1 command_id =
        Except.ok (B, F) := by
  have hinv := reachable_invariant st hre
  cases hfind : (queueOf st client_id).find? (fun c' => c'.command_id = command_id) with
  | none =>
    exfalso
    rw [List.find?_eq_none] at hfind
    exact hfind c hc (by simp [hid])
  | some c₀ =>
    have hc₀mem : c₀ ∈ queueOf st client_id := List.mem_of_find?_eq_some hfind
    have hc₀id : c₀.command_id = command_id := by simpa using List.find?_some hfind
    have hcc₀ : c = c₀ := by
      by_contra hne
      have hpw : (queueOf st client_id).Pairwise
          (fun a b => a.command_id ≠ b.command_id) := by
        have hn := hinv.nodup_ids client_id
        rwa [cmdIds, List.pairwise_map] at hn
      have hsym : Symmetric (fun a b : Command => a.command_id ≠ b.command_id) :=
        fun _ _ hab => fun e => hab e.symm
      exact (hpw.forall hsym hc hc₀mem hne) (hid.trans hc₀id.symm)
    subst hcc₀
    obtain ⟨l₁, l₂, hsplit, hfalse⟩ := find?_split _ _ _ hfind
    have hfalse' : ∀ b ∈ l₁, b.command_id ≠ command_id := fun b hb => by
      simpa using hfalse b hb
    have heq := upload_file_eq_of_found st command_id client_id F B now c hfind
    refine ⟨by rw [heq], ⟨l₁, l₂, hsplit, ?_⟩, by rw [heq], ?_⟩
    · have hp : (upload_file st command_id client_id F B now).1.pending_commands =
          aset client_id (completeById command_id
            (uploadUpdate (build_save_path client_id now F) F B.length now)
            (queueOf st client_id)) st.pending_commands := by
        rw [heq]
      rw [queueOf_set st client_id _ _ hp client_id, if_pos rfl, hsplit,
        completeById_of_first command_id _ l₁ l₂ c hid hfalse']
    · have hl : (upload_file st command_id client_id F B now).1.uploaded_files_metadata =
          st.uploaded_files_metadata ++
            [{ command_id := command_id, client_id := client_id, filename := F,
               saved_path := build_save_path client_id now F, size := B.length,
               uploaded_at := now }] := by
        rw [heq]
      have hnone : st.uploaded_files_metadata.find?
          (fun f => f.command_id = command_id) = none := by
        rw [List.find?_eq_none]
        intro e he hpred
        have hpred' : e.command_id = command_id := by simpa using hpred
        have hdone := hinv.ledger_completed e he client_id c hc (hid.trans hpred'.symm)
        rw [hpend] at hdone
        exact absurd hdone (by decide)
      have hfind2 : ((upload_file st command_id client_id F B now).1.uploaded_files_metadata).find?
          (fun f => f.command_id = command_id) =
          some ({ command_id := command_id, client_id := client_id, filename := F,
                  saved_path := build_save_path client_id now F, size := B.length,
                  uploaded_at := now }) := by
        rw [hl, find?_append_of_none _ _ _ hnone, List.find?_cons_of_pos _ (by simp)]
      have hfs : (upload_file st command_id client_id F B now).1.file_store =
          aset (build_save_path client_id now F) B st.file_store := by
        rw [heq]
      simp [download_file, hfind2, hfs, alookup_aset_self]

/-- Witness for C3 at concrete inputs: uploading `[7, 8]` as `doc.txt`
against the pending command `u9` and downloading by that id returns
exactly those bytes and that filename. -/
theorem upload_completes_and_download_round_trips_witness :
    download_file (upload_file demoPendingUpload "u9" "agent1" "doc.txt" [7, 8] 3).1 "u9" =
      Except.ok ([7, 8], "doc.txt") :=
  (upload_completes_and_download_round_trips demoPendingUpload
    (Reachable.step initState _ Reachable.init
      (by intro cid c hc; simp [queueOf, initState, alookup] at hc))
    "agent1" "u9" "doc.txt" [7, 8] 3
    ({ command_id := "u9", type := "upload", status := "pending",
       filepath := some "/tmp/secret.txt" })
    (by decide) rfl rfl).2.2.2

/-! ## C9: storage paths -/

/-- A list is a prefix of itself followed by anything. -/
theorem isPrefixOf_append_self {α : Type} [DecidableEq α] (l m : List α) :
    l.isPrefixOf (l ++ m) = true := by
  induction l with
  | nil => simp [List.isPrefixOf]
  | cons x rest ih => simp [List.isPrefixOf, ih]

theorem digitChar_ne_slash (m : Nat) (hm : m < 10) : Nat.digitChar m ≠ '/' := by
  interval_cases m <;> decide

theorem natCharsAux_ne_slash (fuel : Nat) :
    ∀ n, ∀ ch ∈ natCharsAux fuel n, ch ≠ '/' := by
  induction fuel with
  | zero =>
    intro n ch hch
    simp [natCharsAux] at hch
  | succ fuel ih =>
    intro n ch hch
    by_cases h : n < 10
    · simp only [natCharsAux, if_pos h, List.mem_singleton] at hch
      subst hch
      exact digitChar_ne_slash n h
    · simp only [natCharsAux, if_neg h] at hch
      rcases List.mem_append.mp hch with hm | hm
      · exact ih (n / 10) ch hm
      · simp only [List.mem_singleton] at hm
        subst hm
        exact digitChar_ne_slash (n % 10) (Nat.mod_lt _ (by omega))

theorem timestampStr_ne_slash (now : Nat) :
    ∀ ch ∈ (timestampStr now).data, ch ≠ '/' := by
  intro ch hch
  exact natCharsAux_ne_slash (now + 1) now ch hch

/-- The sanitized filename is free of both separator characters. -/
theorem sanitizeFilename_no_sep (s : String) :
    ∀ ch ∈ (sanitizeFilename s).data, ch ≠ '/' ∧ ch ≠ '\\' := by
  intro ch hch
  simp only [sanitizeFilename] at hch
  rcases List.mem_map.mp hch with ⟨c1, hc1, rfl⟩
  rcases List.mem_map.mp hc1 with ⟨c0, _, rfl⟩
  by_cases h0 : c0 = '/'
  · simp [h0]
  · by_cases h1 : c0 = '\\'
    · simp [h0, h1]
    · simp [h0, h1]

/-- Splitting a membership in the characters of an appended string. -/
theorem mem_data_append {s t : String} {ch : Char} (h : ch ∈ (s ++ t).data) :
    ch ∈ s.data ∨ ch ∈ t.data := by
  rw [String.data_append] at h
  exact List.mem_append.mp h

/-- A component containing an underscore and no separator is safe. -/
theorem isSafeName_of (l : List Char) (hu : '_' ∈ l) (hs : ∀ ch ∈ l, ch ≠ '/') :
    isSafeName l = true := by
  have h1 : l ≠ [] := List.ne_nil_of_mem hu
  have h2 : l ≠ ['.'] := by
    intro hh
    rw [hh] at hu
    exact absurd hu (by decide)
  have h3 : l ≠ ['.', '.'] := by
    intro hh
    rw [hh] at hu
    exact absurd hu (by decide)
  simp [isSafeName, h1, h2, h3, List.all_eq_true]
  exact fun x hx => hs x hx

/-- C9 (amended): for every uploaded filename — including names with `/`,
`\` or `..` components — the sanitized filename contains no separator
character, and the storage path is exactly
`uploaded_files/{agentId}_{timestamp}_{sanitizedFilename}`; provided the
agent id itself contains no `/` (agent ids are *not* sanitized, see the
counterexample), that path lies directly under the storage root. -/
theorem upload_path_stays_under_root (client_id filename : String) (now : Nat)
    (hcid : ∀ ch ∈ client_id.data, ch ≠ '/') :
    (∀ ch ∈ (sanitizeFilename filename).data, ch ≠ '/' ∧ ch ≠ '\\')
    ∧ build_save_path client_id now filename =
        uploaded_files_dir ++ "/" ++
          (client_id ++ "_" ++ timestampStr now ++ "_" ++ sanitizeFilename filename)
    ∧ isDirectlyUnder (build_save_path client_id now filename) uploaded_files_dir = true := by
  have hmem_name : ∀ ch ∈ (client_id ++ "_" ++ timestampStr now ++ "_" ++
      sanitizeFilename filename).data, ch ≠ '/' := by
    intro ch hch
    rcases mem_data_append hch with hch | hch
    · rcases mem_data_append hch with hch | hch
      · rcases mem_data_append hch with hch | hch
        · rcases mem_data_append hch with hch | hch
          · exact hcid ch hch
          · rw [show ("_" : String).data = ['_'] from rfl, List.mem_singleton] at hch
            subst hch
            decide
        · exact timestampStr_ne_slash now ch hch
      · rw [show ("_" : String).data = ['_'] from rfl, List.mem_singleton] at hch
        subst hch
        decide
    · exact (sanitizeFilename_no_sep filename ch hch).1
  have hunder : '_' ∈ (client_id ++ "_" ++ timestampStr now ++ "_" ++
      sanitizeFilename filename).data := by
    rw [String.data_append]
    refine List.mem_append.mpr (Or.inl ?_)
    rw [String.data_append]
    refine List.mem_append.mpr (Or.inr ?_)
    rw [show ("_" : String).data = ['_'] from rfl]
    exact List.mem_singleton.mpr rfl
  have hhead : (client_id ++ "_" ++ timestampStr now ++ "_" ++
      sanitizeFilename filename).data.head? ≠ some '/' := by
    intro hh
    exact hmem_name '/' (List.mem_of_mem_head? hh) rfl
  have hjoin : build_save_path client_id now filename =
      uploaded_files_dir ++ "/" ++
        (client_id ++ "_" ++ timestampStr now ++ "_" ++ sanitizeFilename filename) := by
    simp only [build_save_path, pathJoin]
    rw [if_neg hhead]
  refine ⟨sanitizeFilename_no_sep filename, hjoin, ?_⟩
  rw [hjoin]
  simp only [isDirectlyUnder]
  rw [show (uploaded_files_dir ++ "/" ++ (client_id ++ "_" ++ timestampStr now ++ "_" ++
      sanitizeFilename filename)).data = (uploaded_files_dir ++ "/").data ++
      (client_id ++ "_" ++ timestampStr now ++ "_" ++ sanitizeFilename filename).data from
    String.data_append _ _]
  rw [isPrefixOf_append_self, List.drop_left]
  rw [Bool.true_and]
  exact isSafeName_of _ hunder hmem_name

/-- Witness for C9 (amended) at concrete inputs: a filename full of
separators and `..` components is flattened to a single safe component
under the storage root. -/
theorem upload_path_stays_under_root_witness :
    sanitizeFilename "../dir/sub\\file.txt" = ".._dir_sub_file.txt"
    ∧ build_save_path "agent1" 5 "../dir/sub\\file.txt" =
        uploaded_files_dir ++ "/" ++
          ("agent1" ++ "_" ++ timestampStr 5 ++ "_" ++ sanitizeFilename "../dir/sub\\file.txt")
    ∧ isDirectlyUnder (build_save_path "agent1" 5 "../dir/sub\\file.txt")
        uploaded_files_dir = true :=
  ⟨rfl,
   (upload_path_stays_under_root "agent1" "../dir/sub\\file.txt" 5 (by decide)).2.1,
   (upload_path_stays_under_root "agent1" "../dir/sub\\file.txt" 5 (by decide)).2.2⟩

/-- C9 counterexample: the claim's "the resulting storage path is always
… directly under the designated storage root, never a path outside it"
fails — the agent id is interpolated unsanitized, so the accepted upload
below stores its bytes at `uploaded_files/../evil_0_a.txt`, which resolves
outside the storage root. -/
theorem upload_path_escapes_root_for_evil_agent_id :
    (upload_file demoEvilAgent "x1" "../evil" "a.txt" [7] 0).2 = Except.ok "x1"
    ∧ build_save_path "../evil" 0 "a.txt" = "uploaded_files/../evil_0_a.txt"
    ∧ alookup "uploaded_files/../evil_0_a.txt"
        (upload_file demoEvilAgent "x1" "../evil" "a.txt" [7] 0).1.file_store = some [7]
    ∧ isDirectlyUnder (build_save_path "../evil" 0 "a.txt") uploaded_files_dir = false :=
  ⟨rfl, rfl, rfl, rfl⟩
